import Mathlib

/-!
Verification of the marketplace retrieval engine of memory-market:
the local vector store (`src/context/vector-store.ts`) and the hybrid
keyword + semantic marketplace search (`src/marketplace/search.ts`).

Modelling conventions:
* JavaScript numbers appearing in data (embeddings, persisted files) are
  modelled as rationals `ℚ`; the cosine-similarity computation, which takes
  square roots, is modelled over the reals `ℝ` (so there is no NaN: the
  zero-denominator case is handled by the source's explicit branch).
* A JavaScript `Map` is modelled as an association list in insertion order;
  `Map.set` on an existing key updates the value in place, keeping the
  key's position, exactly as in JavaScript.
* A thrown exception is modelled by `Except`/an `Option` error component.
  Methods that mutate state return the pair of the state after the call and
  the optional thrown error, so that partial mutation before a throw is
  observable (the source throws before mutating in `add` and `query`).
* `Array.prototype.sort` with comparator `(a, b) => b.score - a.score` is
  modelled as a stable merge sort by descending score (modern JS sorts are
  stable; the comparator orders by descending score).
* Persisted files are modelled as JSON values (`Json` below); a missing or
  unparseable file is `none`.
-/

/-- JSON values, the on-disk format of the vector index. Numbers are
rationals, which is exact for every numeric literal a JSON file can hold. -/
inductive Json where
  | null
  | bool (b : Bool)
  | num (q : ℚ)
  | str (s : String)
  | arr (elems : List Json)
  | obj (fields : List (String × Json))

/-- A JavaScript object used as a string-keyed record (the
`Record<string, unknown>` metadata of the vector store). -/
abbrev Metadata := List (String × Json)

/-- Field access on a JavaScript object (`o.key`), `none` when absent.
Well-formed objects written by this code have distinct keys. -/
def lookupField (fields : List (String × Json)) (key : String) : Option Json :=
  (fields.find? (fun p => decide (p.1 = key))).map (fun p => p.2)

/-- Mirrors `VectorEntry` of `vector-store.ts`. -/
structure VectorEntry where
  id : String
  embedding : List ℚ
  metadata : Metadata

/-- Mirrors the vector store's `SearchResult` of `vector-store.ts`
(id, similarity score, metadata). -/
structure VSearchResult where
  id : String
  score : ℝ
  metadata : Metadata

/-- The errors thrown by the vector store: `dimensionMismatch` is the
`Embedding dimension mismatch: expected E, got G` error of `add`/`query`,
`vectorLengthMismatch` the `Vector length mismatch: A vs B` error of
`cosineSimilarity`. -/
inductive VSError where
  | dimensionMismatch (expected got : Nat)
  | vectorLengthMismatch (lenA lenB : Nat)
deriving DecidableEq

/-- Mirrors `LocalVectorStore`: the private `entries : Map<string, VectorEntry>`
in insertion order, plus the fixed dimensionality. -/
structure LocalVectorStore where
  entries : List VectorEntry
  dimensions : Nat

/-- `Map.set(entry.id, entry)`: update in place if the key exists, else
append at the end (JavaScript `Map` insertion-order semantics). -/
def setEntry : List VectorEntry → VectorEntry → List VectorEntry
  | [], e => [e]
  | x :: xs, e => if x.id = e.id then e :: xs else x :: setEntry xs e

/-- The `size` getter: `entries.size`. -/
def LocalVectorStore.size (s : LocalVectorStore) : Nat := s.entries.length

/-- The `get(id)` method: `entries.get(id)`. -/
def LocalVectorStore.get (s : LocalVectorStore) (id : String) : Option VectorEntry :=
  s.entries.find? (fun e => decide (e.id = id))

/-- The `has(id)` method: `entries.has(id)`. -/
def LocalVectorStore.has (s : LocalVectorStore) (id : String) : Bool :=
  (s.get id).isSome

/-- The `add(id, embedding, metadata)` method. Returns the store after the
call together with the thrown error, if any: the dimension check throws
before any mutation, so on error the store is returned unchanged. -/
def LocalVectorStore.add (s : LocalVectorStore) (id : String) (embedding : List ℚ)
    (metadata : Metadata) : LocalVectorStore × Option VSError :=
  if embedding.length ≠ s.dimensions then
    (s, some (VSError.dimensionMismatch s.dimensions embedding.length))
  else
    ({ s with entries := setEntry s.entries ⟨id, embedding, metadata⟩ }, none)

/-- An element of the `items` argument of `addBatch`; `metadata` is the
optional field, defaulted to `{}` (`item.metadata ?? {}`) when absent. -/
structure BatchItem where
  id : String
  embedding : List ℚ
  metadata : Option Metadata

/-- The `addBatch(items)` method: `add` applied to each item in order; a
thrown error aborts the loop and propagates, leaving the mutations of the
earlier items in place. -/
def LocalVectorStore.addBatch (s : LocalVectorStore) :
    List BatchItem → LocalVectorStore × Option VSError
  | [] => (s, none)
  | item :: rest =>
      match s.add item.id item.embedding (item.metadata.getD []) with
      | (s1, none) => s1.addBatch rest
      | (s1, some e) => (s1, some e)

/-- The accumulation loop of `cosineSimilarity`: `dotSum a b` is the final
`dotProduct` accumulator for inputs `a`, `b`; `dotSum a a` is `normA`. -/
def dotSum (a b : List ℚ) : ℚ := (List.zipWith (fun x y => x * y) a b).sum

/-- The value `cosineSimilarity` returns on equal-length inputs: the dot
product over `sqrt(normA) * sqrt(normB)`, and `0` when that denominator is
zero (the source's explicit `denominator === 0` branch). -/
noncomputable def cosValue (a b : List ℚ) : ℝ :=
  let denominator : ℝ := Real.sqrt ((dotSum a a : ℚ) : ℝ) * Real.sqrt ((dotSum b b : ℚ) : ℝ)
  if denominator = 0 then 0 else ((dotSum a b : ℚ) : ℝ) / denominator

/-- Mirrors the exported `cosineSimilarity(a, b)`: throws on a length
mismatch, otherwise returns `dot / (sqrt(normA) * sqrt(normB))` with the
zero-denominator case mapped to `0`. -/
noncomputable def cosineSimilarity (a b : List ℚ) : Except VSError ℝ :=
  if a.length ≠ b.length then
    Except.error (VSError.vectorLengthMismatch a.length b.length)
  else
    Except.ok (cosValue a b)

/-- The `query(embedding, topK)` method: dimension check, cosine score for
every stored entry in insertion order (a thrown `cosineSimilarity` error
propagates), stable sort by descending score, first `topK` results. -/
noncomputable def LocalVectorStore.query (s : LocalVectorStore) (embedding : List ℚ)
    (topK : Nat) : Except VSError (List VSearchResult) :=
  if embedding.length ≠ s.dimensions then
    Except.error (VSError.dimensionMismatch s.dimensions embedding.length)
  else do
    let scored ← s.entries.mapM (fun e =>
      (cosineSimilarity embedding e.embedding).map
        (fun sc => VSearchResult.mk e.id sc e.metadata))
    pure ((scored.mergeSort (fun a b => decide (b.score ≤ a.score))).take topK)

/-- Serialization of one entry inside `save`: the JSON object
`{id, embedding, metadata}` with the fields in declaration order. -/
def encodeEntry (e : VectorEntry) : Json :=
  Json.obj [("id", Json.str e.id),
            ("embedding", Json.arr (e.embedding.map Json.num)),
            ("metadata", Json.obj e.metadata)]

/-- The `save(filePath)` method as the JSON value written to the file:
`{entries: [...], dimensions}` (the `StoredData` shape). -/
def LocalVectorStore.save (s : LocalVectorStore) : Json :=
  Json.obj [("entries", Json.arr (s.entries.map encodeEntry)),
            ("dimensions", Json.num (s.dimensions : ℚ))]

/-- Failure modes of `load`: `fileMissingOrUnparseable` covers the
`readFileSync` and `JSON.parse` exceptions, `malformedData` the runtime
`TypeError` raised while consuming a JSON value of the wrong shape. -/
inductive LoadError where
  | fileMissingOrUnparseable
  | malformedData
deriving DecidableEq

/-- Reads `data.dimensions` as a dimensionality. Modelled restriction: a
present `dimensions` value must be a natural number — the only value this
repository's `save` ever writes; other values are mapped to a failure. -/
def decodeNat (j : Json) : Option Nat :=
  match j with
  | Json.num q => if q.den = 1 ∧ 0 ≤ q.num then some q.num.toNat else none
  | _ => none

/-- Reads one element of `data.entries` as a `VectorEntry`. Modelled
restriction: entries must be well-typed `{id, embedding, metadata}` objects
— the only shape this repository's `save` ever writes. -/
def decodeEntry (j : Json) : Option VectorEntry :=
  match j with
  | Json.obj fields =>
      match lookupField fields "id", lookupField fields "embedding",
            lookupField fields "metadata" with
      | some (Json.str id), some (Json.arr emb), some (Json.obj md) =>
          (emb.mapM (fun x => match x with | Json.num q => some q | _ => none)).map
            (fun embedding => VectorEntry.mk id embedding md)
      | _, _, _ => none
  | _ => none

/-- Reads `data.dimensions` for the `new LocalVectorStore(data.dimensions)`
call of `load`. An absent field leaves `data.dimensions` undefined, so the
constructor default `768` applies — the source performs no shape validation
of its own. -/
def decodeDims (fields : List (String × Json)) : Option Nat :=
  match lookupField fields "dimensions" with
  | none => some 768
  | some dj => decodeNat dj

/-- Reads `data.entries`, failing when it is not an array (the `for...of`
loop of `load` throws a `TypeError` on a non-iterable value). -/
def decodeEntries (fields : List (String × Json)) : Option (List VectorEntry) :=
  match lookupField fields "entries" with
  | some (Json.arr es) => es.mapM decodeEntry
  | _ => none

/-- The static `load(filePath)` method on the parsed file contents (`none`
when the file is missing or not valid JSON). The entries are replayed
through `entries.set(entry.id, entry)` into a fresh store. -/
def LocalVectorStore.load (file : Option Json) : Except LoadError LocalVectorStore :=
  match file with
  | none => Except.error LoadError.fileMissingOrUnparseable
  | some (Json.obj fields) =>
      match decodeDims fields, decodeEntries fields with
      | some dims, some entries => Except.ok ⟨entries.foldl setEntry [], dims⟩
      | _, _ => Except.error LoadError.malformedData
  | some _ => Except.error LoadError.malformedData

/-- Mirrors `PackageListing` of `registry.ts` (numeric SQL columns are
rationals/naturals as appropriate). -/
structure PackageListing where
  id : String
  name : String
  description : String
  tags : String
  priceMon : ℚ
  tokenAddress : Option String
  curveAddress : Option String
  creatorAddress : Option String
  packagePath : String
  fileCount : Nat
  chunkCount : Nat
  entityCount : Nat
  timesSold : Nat
  createdAt : String
deriving DecidableEq

/-- The `matchType` discriminator of the marketplace `SearchResult`. -/
inductive MatchType where
  | keyword
  | semantic
  | combined
deriving DecidableEq

/-- Mirrors the marketplace `SearchResult` of `search.ts`. -/
structure SearchResult where
  listing : PackageListing
  score : ℝ
  matchType : MatchType

/-- The body of `keywordSearch`'s `listings.map((listing, index) => ...)`,
carrying the running zero-based index. -/
noncomputable def keywordSearchFrom (i : Nat) : List PackageListing → List SearchResult
  | [] => []
  | l :: rest =>
      SearchResult.mk l (1 - (i : ℝ) * 0.05) MatchType.keyword :: keywordSearchFrom (i + 1) rest

/-- `keywordSearch(query)` as a function of the listings the Listing Store
returns for the query (the SQLite `LIKE` search is the external
collaborator): position-based scores, all tagged `keyword`. -/
noncomputable def keywordSearch (listings : List PackageListing) : List SearchResult :=
  keywordSearchFrom 0 listings

/-- One iteration of `semanticSearch`'s resolution loop: read
`metadata.packageId`, skip falsy values (`undefined` or the empty string),
look the package up in the registry, skip unresolved ids, otherwise build a
`semantic` result carrying the neighbor's raw similarity score. -/
def resolveNeighbor (getPackage : String → Option PackageListing)
    (r : VSearchResult) : Option SearchResult :=
  match lookupField r.metadata "packageId" with
  | some (Json.str pid) =>
      if pid = "" then none
      else (getPackage pid).map (fun l => SearchResult.mk l r.score MatchType.semantic)
  | _ => none

/-- `semanticSearch`'s output as a function of the vector-index neighbors
returned by `summaryStore.query` and of the registry's `getPackage`. -/
def semanticSearchResults (getPackage : String → Option PackageListing)
    (neighbors : List VSearchResult) : List SearchResult :=
  neighbors.filterMap (resolveNeighbor getPackage)

/-- A value of `combineResults`' `scoreMap`. -/
structure FuseEntry where
  listing : PackageListing
  keywordScore : ℝ
  semanticScore : ℝ

/-- `scoreMap.set(key, value)` (JavaScript `Map` semantics, as `setEntry`). -/
def mapSet : List (String × FuseEntry) → String → FuseEntry → List (String × FuseEntry)
  | [], k, v => [(k, v)]
  | (k1, v1) :: rest, k, v =>
      if k1 = k then (k, v) :: rest else (k1, v1) :: mapSet rest k v

/-- `scoreMap.get(key)`. -/
def mapGet (m : List (String × FuseEntry)) (k : String) : Option FuseEntry :=
  (m.find? (fun p => decide (p.1 = k))).map (fun p => p.2)

/-- The first loop of `combineResults`: every keyword result is entered
with its score and a semantic score of `0`. -/
def keywordPass (keyword : List SearchResult) : List (String × FuseEntry) :=
  keyword.foldl (fun m r => mapSet m r.listing.id ⟨r.listing, r.score, 0⟩) []

/-- The second loop of `combineResults`: a semantic result either fills the
`semanticScore` of an existing entry or is entered with a keyword score of
`0`. -/
def semanticPass (acc : List (String × FuseEntry)) (semantic : List SearchResult) :
    List (String × FuseEntry) :=
  semantic.foldl (fun m r =>
    match mapGet m r.listing.id with
    | some e => mapSet m r.listing.id ⟨e.listing, e.keywordScore, r.score⟩
    | none => mapSet m r.listing.id ⟨r.listing, 0, r.score⟩) acc

/-- The fully built `scoreMap` of `combineResults`. -/
def scoreMap (keyword semantic : List SearchResult) : List (String × FuseEntry) :=
  semanticPass (keywordPass keyword) semantic

/-- The third loop of `combineResults`, for one map entry: the weighted
score `keywordScore * 0.4 + semanticScore * 0.6` and the match type
(`combined` when both scores are strictly positive, else `keyword` when the
keyword score is strictly positive, else `semantic`). -/
noncomputable def fuseEntryResult (e : FuseEntry) : SearchResult :=
  SearchResult.mk e.listing (e.keywordScore * 0.4 + e.semanticScore * 0.6)
    (if 0 < e.keywordScore ∧ 0 < e.semanticScore then MatchType.combined
     else if 0 < e.keywordScore then MatchType.keyword else MatchType.semantic)

/-- The `combined` list of `combineResults` before sorting and truncation,
in the map's insertion order. -/
noncomputable def combineAll (keyword semantic : List SearchResult) : List SearchResult :=
  (scoreMap keyword semantic).map (fun p => fuseEntryResult p.2)

/-- The private `combineResults(keyword, semantic, limit)`: weighted fusion,
sort by descending combined score, truncate to `limit`. -/
noncomputable def combineResults (keyword semantic : List SearchResult) (limit : Nat) :
    List SearchResult :=
  ((combineAll keyword semantic).mergeSort (fun a b => decide (b.score ≤ a.score))).take limit

/-- The configuration state of a `MarketplaceSearch` instance that `search`
inspects: whether `this.embedder` is set, and `this.summaryStore`. -/
structure MarketplaceSearchState where
  embedderConfigured : Bool
  summaryStore : Option LocalVectorStore

/-- The guard `this.embedder && this.summaryStore && this.summaryStore.size > 0`
of `search`. -/
def semanticAvailable (st : MarketplaceSearchState) : Bool :=
  st.embedderConfigured &&
    (match st.summaryStore with
     | some s => decide (0 < s.size)
     | none => false)

/-- `search(query, limit)` as a function of the keyword results and of the
value `semanticSearch(query, limit)` would produce (`semanticOracle`; the
embedding call is the external collaborator). Semantic search runs only
under the availability guard; an empty semantic result list degrades to the
keyword results truncated to `limit`; otherwise the two lists are fused. -/
noncomputable def search (st : MarketplaceSearchState)
    (keywordResults semanticOracle : List SearchResult) (limit : Nat) : List SearchResult :=
  let semanticResults := if semanticAvailable st then semanticOracle else []
  if semanticResults.length = 0 then keywordResults.take limit
  else combineResults keywordResults semanticResults limit

/-! Helper lemmas about `keywordSearch`. -/

theorem keywordSearchFrom_length (i : Nat) (ls : List PackageListing) :
    (keywordSearchFrom i ls).length = ls.length := by
  induction ls generalizing i with
  | nil => simp [keywordSearchFrom]
  | cons l rest ih => simp [keywordSearchFrom, ih]

theorem keywordSearchFrom_getD (i j : Nat) (ls : List PackageListing) (d : SearchResult)
    (h : j < ls.length) :
    ((keywordSearchFrom i ls).getD j d).score = 1 - ((i + j : Nat) : ℝ) * 0.05 ∧
    ((keywordSearchFrom i ls).getD j d).matchType = MatchType.keyword := by
  induction ls generalizing i j with
  | nil => simp at h
  | cons l rest ih =>
      cases j with
      | zero => simp [keywordSearchFrom]
      | succ j =>
          have hj : j < rest.length := by simpa using h
          have := ih (i + 1) j hj
          simpa [keywordSearchFrom, Nat.add_assoc, Nat.add_comm 1 j] using this

theorem keywordSearch_length (ls : List PackageListing) :
    (keywordSearch ls).length = ls.length :=
  keywordSearchFrom_length 0 ls

theorem keywordSearch_getD_score (ls : List PackageListing) (j : Nat) (d : SearchResult)
    (h : j < ls.length) :
    ((keywordSearch ls).getD j d).score = 1 - (j : ℝ) * 0.05 := by
  have := (keywordSearchFrom_getD 0 j ls d h).1
  simpa [keywordSearch] using this

theorem keywordSearch_mem_score (ls : List PackageListing) (r : SearchResult)
    (hr : r ∈ keywordSearch ls) :
    ∃ j, j < ls.length ∧ r.score = 1 - (j : ℝ) * 0.05 := by
  obtain ⟨j, hj, hget⟩ := List.mem_iff_getElem.mp hr
  have hj2 : j < ls.length := by simpa [keywordSearch_length] using hj
  refine ⟨j, hj2, ?_⟩
  have hD : (keywordSearch ls).getD j r = (keywordSearch ls)[j] :=
    List.getD_eq_getElem _ _ hj
  have := keywordSearch_getD_score ls j r hj2
  rw [hD, hget] at this
  exact this

/-! Helper lemmas about the entry map (`setEntry`, `find?`, `foldl`). -/

theorem find?_setEntry_self (es : List VectorEntry) (e : VectorEntry) :
    (setEntry es e).find? (fun x => decide (x.id = e.id)) = some e := by
  induction es with
  | nil => simp [setEntry]
  | cons x xs ih =>
      by_cases h : x.id = e.id
      · simp [setEntry, h]
      · simp [setEntry, h, ih]

theorem find?_setEntry_ne (es : List VectorEntry) (e : VectorEntry) (id : String)
    (h : id ≠ e.id) :
    (setEntry es e).find? (fun x => decide (x.id = id)) =
      es.find? (fun x => decide (x.id = id)) := by
  induction es with
  | nil =>
      simp only [setEntry, List.find?_cons, List.find?_nil]
      have heid : ¬ e.id = id := fun hc => h hc.symm
      simp [heid]
  | cons x xs ih =>
      by_cases hx : x.id = e.id
      · simp only [setEntry]
        rw [if_pos hx]
        have heid : ¬ e.id = id := fun hc => h hc.symm
        have hxid : ¬ x.id = id := fun hc => heid (hx ▸ hc)
        simp [List.find?_cons, heid, hxid]
      · simp only [setEntry]
        rw [if_neg hx]
        by_cases hxi : x.id = id
        · simp [List.find?_cons, hxi]
        · simp [List.find?_cons, hxi, ih]

theorem setEntry_of_not_mem (es : List VectorEntry) (e : VectorEntry)
    (h : e.id ∉ es.map VectorEntry.id) : setEntry es e = es ++ [e] := by
  induction es with
  | nil => simp [setEntry]
  | cons x xs ih =>
      have hx : ¬ x.id = e.id := by
        intro hc
        exact h (by simp [hc])
      have hxs : e.id ∉ xs.map VectorEntry.id := fun hc => h (by simp [hc])
      simp [setEntry, hx, ih hxs]

theorem foldl_setEntry_of_nodup (l : List VectorEntry) (acc : List VectorEntry)
    (h : ((acc ++ l).map VectorEntry.id).Nodup) : l.foldl setEntry acc = acc ++ l := by
  induction l generalizing acc with
  | nil => simp
  | cons x xs ih =>
      rw [List.map_append] at h
      have hdis := (List.nodup_append.mp h).2.2
      have hx : x.id ∉ acc.map VectorEntry.id := by
        intro hc
        exact hdis hc (by simp)
      have hset : setEntry acc x = acc ++ [x] := setEntry_of_not_mem acc x hx
      have hnd2 : (((acc ++ [x]) ++ xs).map VectorEntry.id).Nodup := by
        rw [List.append_assoc]
        simpa using h
      calc (x :: xs).foldl setEntry acc = xs.foldl setEntry (setEntry acc x) := rfl
        _ = (acc ++ [x]) ++ xs := by rw [hset]; exact ih (acc ++ [x]) hnd2
        _ = acc ++ x :: xs := by simp


theorem find?_foldl_setEntry_fresh (l : List VectorEntry) (acc : List VectorEntry)
    (id : String) (h : id ∉ l.map VectorEntry.id) :
    (l.foldl setEntry acc).find? (fun e => decide (e.id = id)) =
      acc.find? (fun e => decide (e.id = id)) := by
  induction l generalizing acc with
  | nil => rfl
  | cons x xs ih =>
      have hx : id ≠ x.id := by
        intro hc
        exact h (by simp [hc])
      have hxs : id ∉ xs.map VectorEntry.id := fun hc => h (by simp [hc])
      calc ((x :: xs).foldl setEntry acc).find? (fun e => decide (e.id = id))
          = (xs.foldl setEntry (setEntry acc x)).find? (fun e => decide (e.id = id)) := rfl
        _ = (setEntry acc x).find? (fun e => decide (e.id = id)) := ih (setEntry acc x) hxs
        _ = acc.find? (fun e => decide (e.id = id)) := find?_setEntry_ne acc x id hx

theorem find?_foldl_setEntry_mem (l : List VectorEntry) (acc : List VectorEntry)
    (x : VectorEntry) (hx : x ∈ l) (hnd : (l.map VectorEntry.id).Nodup) :
    (l.foldl setEntry acc).find? (fun e => decide (e.id = x.id)) = some x := by
  induction l generalizing acc with
  | nil => simp at hx
  | cons y ys ih =>
      rw [List.map_cons, List.nodup_cons] at hnd
      rcases List.mem_cons.mp hx with hxy | hxys
      · subst hxy
        have hfresh : x.id ∉ ys.map VectorEntry.id := hnd.1
        calc ((x :: ys).foldl setEntry acc).find? (fun e => decide (e.id = x.id))
            = (ys.foldl setEntry (setEntry acc x)).find? (fun e => decide (e.id = x.id)) := rfl
          _ = (setEntry acc x).find? (fun e => decide (e.id = x.id)) :=
              find?_foldl_setEntry_fresh ys (setEntry acc x) x.id hfresh
          _ = some x := find?_setEntry_self acc x
      · exact ih (setEntry acc y) hxys hnd.2

/-! Helper lemmas about serialization (`save`/`load`). -/

theorem mapM_num_roundtrip (l : List ℚ) :
    (l.map Json.num).mapM (fun x => match x with | Json.num q => some q | _ => none) =
      some l := by
  rw [← List.mapM'_eq_mapM]
  induction l with
  | nil => rfl
  | cons q rest ih => simp [List.mapM', ih]

theorem decodeEntry_encodeEntry (e : VectorEntry) : decodeEntry (encodeEntry e) = some e := by
  have h : decodeEntry (encodeEntry e) =
      ((e.embedding.map Json.num).mapM
          (fun x => match x with | Json.num q => some q | _ => none)).map
        (fun embedding => VectorEntry.mk e.id embedding e.metadata) := rfl
  rw [h, mapM_num_roundtrip]
  rfl

theorem mapM_decodeEntry_encode (l : List VectorEntry) :
    (l.map encodeEntry).mapM decodeEntry = some l := by
  rw [← List.mapM'_eq_mapM]
  induction l with
  | nil => rfl
  | cons e rest ih => simp [List.mapM', decodeEntry_encodeEntry, ih]

theorem decodeNat_natCast (n : Nat) : decodeNat (Json.num (n : ℚ)) = some n := by
  simp [decodeNat, Rat.den_natCast, Rat.num_natCast]

theorem decodeDims_save (s : LocalVectorStore) :
    decodeDims [("entries", Json.arr (s.entries.map encodeEntry)),
                ("dimensions", Json.num (s.dimensions : ℚ))] = some s.dimensions := by
  have h : decodeDims [("entries", Json.arr (s.entries.map encodeEntry)),
                       ("dimensions", Json.num (s.dimensions : ℚ))] =
      decodeNat (Json.num (s.dimensions : ℚ)) := rfl
  rw [h, decodeNat_natCast]

theorem decodeEntries_save (s : LocalVectorStore) :
    decodeEntries [("entries", Json.arr (s.entries.map encodeEntry)),
                   ("dimensions", Json.num (s.dimensions : ℚ))] = some s.entries := by
  have h : decodeEntries [("entries", Json.arr (s.entries.map encodeEntry)),
                          ("dimensions", Json.num (s.dimensions : ℚ))] =
      (s.entries.map encodeEntry).mapM decodeEntry := rfl
  rw [h, mapM_decodeEntry_encode]

theorem load_save_eq (s : LocalVectorStore)
    (hnd : (s.entries.map VectorEntry.id).Nodup) :
    LocalVectorStore.load (some s.save) = Except.ok s := by
  have hfold : s.entries.foldl setEntry [] = s.entries := by
    simpa using foldl_setEntry_of_nodup s.entries [] (by simpa using hnd)
  show (match decodeDims [("entries", Json.arr (s.entries.map encodeEntry)),
                          ("dimensions", Json.num (s.dimensions : ℚ))],
              decodeEntries [("entries", Json.arr (s.entries.map encodeEntry)),
                             ("dimensions", Json.num (s.dimensions : ℚ))] with
        | some dims, some entries =>
            Except.ok (⟨entries.foldl setEntry [], dims⟩ : LocalVectorStore)
        | _, _ => Except.error LoadError.malformedData) = Except.ok s
  rw [decodeDims_save, decodeEntries_save]
  simp only [hfold]

/-! Helper lemmas about `dotSum` and the cosine value. -/

theorem dotSum_cons (x y : ℚ) (xs ys : List ℚ) :
    dotSum (x :: xs) (y :: ys) = x * y + dotSum xs ys := by
  simp [dotSum]

theorem dotSum_self_nonneg (a : List ℚ) : 0 ≤ dotSum a a := by
  unfold dotSum
  rw [List.zipWith_same]
  refine List.sum_nonneg ?_
  intro x hx
  obtain ⟨y, _, rfl⟩ := List.mem_map.mp hx
  exact mul_self_nonneg y

theorem dotSum_map_neg_right (a : List ℚ) :
    dotSum a (a.map (fun x => -x)) = -dotSum a a := by
  induction a with
  | nil => simp [dotSum]
  | cons x xs ih =>
      rw [List.map_cons, dotSum_cons, ih, dotSum_cons]
      ring

theorem dotSum_map_neg_self (a : List ℚ) :
    dotSum (a.map (fun x => -x)) (a.map (fun x => -x)) = dotSum a a := by
  induction a with
  | nil => simp [dotSum]
  | cons x xs ih =>
      rw [List.map_cons, dotSum_cons, ih, dotSum_cons]
      ring

theorem sum_sq_expand (a b : List ℚ) (h : a.length = b.length) (t : ℚ) :
    (List.zipWith (fun x y => (x + t * y) * (x + t * y)) a b).sum =
      dotSum b b * (t * t) + 2 * dotSum a b * t + dotSum a a := by
  induction a generalizing b with
  | nil =>
      cases b with
      | nil => simp [dotSum]
      | cons y ys => simp at h
  | cons x xs ih =>
      cases b with
      | nil => simp at h
      | cons y ys =>
          have h2 : xs.length = ys.length := by simpa using h
          rw [List.zipWith_cons_cons, List.sum_cons, ih ys h2, dotSum_cons, dotSum_cons,
              dotSum_cons]
          ring

theorem zipWith_sq_sum_nonneg (a b : List ℚ) (t : ℚ) :
    0 ≤ (List.zipWith (fun x y => (x + t * y) * (x + t * y)) a b).sum := by
  induction a generalizing b with
  | nil => simp
  | cons x xs ih =>
      cases b with
      | nil => simp
      | cons y ys =>
          rw [List.zipWith_cons_cons, List.sum_cons]
          exact add_nonneg (mul_self_nonneg _) (ih ys)

theorem cauchy_schwarz_dotSum (a b : List ℚ) (h : a.length = b.length) :
    dotSum a b * dotSum a b ≤ dotSum a a * dotSum b b := by
  have hq : ∀ t : ℚ, 0 ≤ dotSum b b * (t * t) + 2 * dotSum a b * t + dotSum a a := by
    intro t
    rw [← sum_sq_expand a b h t]
    exact zipWith_sq_sum_nonneg a b t
  have hd := discrim_le_zero hq
  rw [discrim] at hd
  nlinarith [hd]

theorem cosValue_of_norm_zero (a b : List ℚ)
    (h : dotSum a a = 0 ∨ dotSum b b = 0) : cosValue a b = 0 := by
  unfold cosValue
  rcases h with h | h <;> rw [h] <;> simp

theorem sqrt_dotSum_pos (a : List ℚ) (h : dotSum a a ≠ 0) :
    0 < Real.sqrt ((dotSum a a : ℚ) : ℝ) := by
  refine Real.sqrt_pos.mpr ?_
  have h0 : 0 ≤ dotSum a a := dotSum_self_nonneg a
  have : (0 : ℚ) < dotSum a a := lt_of_le_of_ne h0 (Ne.symm h)
  exact_mod_cast this

theorem cosValue_formula (a b : List ℚ) (ha : dotSum a a ≠ 0) (hb : dotSum b b ≠ 0) :
    cosValue a b = ((dotSum a b : ℚ) : ℝ) /
      (Real.sqrt ((dotSum a a : ℚ) : ℝ) * Real.sqrt ((dotSum b b : ℚ) : ℝ)) := by
  unfold cosValue
  have hpos : 0 < Real.sqrt ((dotSum a a : ℚ) : ℝ) * Real.sqrt ((dotSum b b : ℚ) : ℝ) :=
    mul_pos (sqrt_dotSum_pos a ha) (sqrt_dotSum_pos b hb)
  rw [if_neg (ne_of_gt hpos)]

theorem cosValue_bounds (a b : List ℚ) (h : a.length = b.length) :
    -1 ≤ cosValue a b ∧ cosValue a b ≤ 1 := by
  unfold cosValue
  by_cases hden :
      Real.sqrt ((dotSum a a : ℚ) : ℝ) * Real.sqrt ((dotSum b b : ℚ) : ℝ) = 0
  · rw [if_pos hden]
    norm_num
  · rw [if_neg hden]
    have hnA : (0 : ℝ) ≤ ((dotSum a a : ℚ) : ℝ) := by exact_mod_cast dotSum_self_nonneg a
    have hnB : (0 : ℝ) ≤ ((dotSum b b : ℚ) : ℝ) := by exact_mod_cast dotSum_self_nonneg b
    have hge : 0 ≤ Real.sqrt ((dotSum a a : ℚ) : ℝ) * Real.sqrt ((dotSum b b : ℚ) : ℝ) :=
      mul_nonneg (Real.sqrt_nonneg _) (Real.sqrt_nonneg _)
    have hpos : 0 < Real.sqrt ((dotSum a a : ℚ) : ℝ) * Real.sqrt ((dotSum b b : ℚ) : ℝ) :=
      lt_of_le_of_ne hge (Ne.symm hden)
    have hcs : ((dotSum a b : ℚ) : ℝ) * ((dotSum a b : ℚ) : ℝ) ≤
        ((dotSum a a : ℚ) : ℝ) * ((dotSum b b : ℚ) : ℝ) := by
      exact_mod_cast cauchy_schwarz_dotSum a b h
    have habs : |((dotSum a b : ℚ) : ℝ)| ≤
        Real.sqrt ((dotSum a a : ℚ) : ℝ) * Real.sqrt ((dotSum b b : ℚ) : ℝ) := by
      calc |((dotSum a b : ℚ) : ℝ)|
          = Real.sqrt (((dotSum a b : ℚ) : ℝ) * ((dotSum a b : ℚ) : ℝ)) :=
            (Real.sqrt_mul_self_eq_abs _).symm
        _ ≤ Real.sqrt (((dotSum a a : ℚ) : ℝ) * ((dotSum b b : ℚ) : ℝ)) :=
            Real.sqrt_le_sqrt hcs
        _ = Real.sqrt ((dotSum a a : ℚ) : ℝ) * Real.sqrt ((dotSum b b : ℚ) : ℝ) :=
            Real.sqrt_mul hnA _
    have habs2 : |((dotSum a b : ℚ) : ℝ) /
        (Real.sqrt ((dotSum a a : ℚ) : ℝ) * Real.sqrt ((dotSum b b : ℚ) : ℝ))| ≤ 1 := by
      rw [abs_div, abs_of_pos hpos]
      exact (div_le_one hpos).mpr habs
    exact abs_le.mp habs2

theorem cosValue_self (a : List ℚ) (ha : dotSum a a ≠ 0) : cosValue a a = 1 := by
  unfold cosValue
  have hnA : (0 : ℝ) ≤ ((dotSum a a : ℚ) : ℝ) := by exact_mod_cast dotSum_self_nonneg a
  have hsq : Real.sqrt ((dotSum a a : ℚ) : ℝ) * Real.sqrt ((dotSum a a : ℚ) : ℝ) =
      ((dotSum a a : ℚ) : ℝ) := Real.mul_self_sqrt hnA
  have hne : ((dotSum a a : ℚ) : ℝ) ≠ 0 := by exact_mod_cast ha
  rw [if_neg (by rw [hsq]; exact hne), hsq]
  exact div_self hne

theorem cosValue_opposite (a : List ℚ) (ha : dotSum a a ≠ 0) :
    cosValue a (a.map (fun x => -x)) = -1 := by
  unfold cosValue
  rw [dotSum_map_neg_self, dotSum_map_neg_right]
  have hnA : (0 : ℝ) ≤ ((dotSum a a : ℚ) : ℝ) := by exact_mod_cast dotSum_self_nonneg a
  have hsq : Real.sqrt ((dotSum a a : ℚ) : ℝ) * Real.sqrt ((dotSum a a : ℚ) : ℝ) =
      ((dotSum a a : ℚ) : ℝ) := Real.mul_self_sqrt hnA
  have hne : ((dotSum a a : ℚ) : ℝ) ≠ 0 := by exact_mod_cast ha
  rw [if_neg (by rw [hsq]; exact hne), hsq]
  push_cast
  rw [neg_div]
  rw [div_self hne]

/-! Helper lemmas about sorting by descending score and about `query`. -/

theorem pairwise_desc_mergeSort {α : Type} (key : α → ℝ) (l : List α) :
    List.Pairwise (fun x y => key y ≤ key x)
      (l.mergeSort (fun x y => decide (key y ≤ key x))) := by
  have h := @List.sorted_mergeSort α (fun x y => decide (key y ≤ key x))
      (fun a b c hab hbc =>
        decide_eq_true (le_trans (of_decide_eq_true hbc) (of_decide_eq_true hab)))
      (fun a b => by
        rw [Bool.or_eq_true]
        rcases le_total (key b) (key a) with hle | hle
        · exact Or.inl (decide_eq_true hle)
        · exact Or.inr (decide_eq_true hle)) l
  exact h.imp (fun hab => of_decide_eq_true hab)

theorem mapM_except_ok {α β ε : Type} (f : α → Except ε β) (g : α → β) (l : List α)
    (h : ∀ x ∈ l, f x = Except.ok (g x)) : l.mapM f = Except.ok (l.map g) := by
  rw [← List.mapM'_eq_mapM]
  induction l with
  | nil => rfl
  | cons x xs ih =>
      have hx := h x (List.mem_cons_self x xs)
      have hxs := ih (fun y hy => h y (List.mem_cons_of_mem x hy))
      simp [List.mapM', hx, hxs]
      rfl

theorem cosineSimilarity_ok (a b : List ℚ) (h : a.length = b.length) :
    cosineSimilarity a b = Except.ok (cosValue a b) := by
  unfold cosineSimilarity
  rw [if_neg (by simp [h])]

theorem query_ok (s : LocalVectorStore) (v : List ℚ) (k : Nat)
    (hwf : ∀ e ∈ s.entries, e.embedding.length = s.dimensions)
    (hv : v.length = s.dimensions) :
    s.query v k = Except.ok
      (((s.entries.map (fun e => VSearchResult.mk e.id (cosValue v e.embedding) e.metadata)).mergeSort
          (fun a b => decide (b.score ≤ a.score))).take k) := by
  unfold LocalVectorStore.query
  rw [if_neg (by simp [hv])]
  have hmm := mapM_except_ok
      (fun e => (cosineSimilarity v e.embedding).map
        (fun sc => VSearchResult.mk e.id sc e.metadata))
      (fun e => VSearchResult.mk e.id (cosValue v e.embedding) e.metadata)
      s.entries
      (fun e he => by
        have hcs : cosineSimilarity v e.embedding = Except.ok (cosValue v e.embedding) :=
          cosineSimilarity_ok v e.embedding (by rw [hv, hwf e he])
        show Except.map (fun sc => VSearchResult.mk e.id sc e.metadata)
            (cosineSimilarity v e.embedding) =
          Except.ok (VSearchResult.mk e.id (cosValue v e.embedding) e.metadata)
        rw [hcs]
        rfl)
  rw [hmm]
  rfl

/-! Helper lemmas about the fusion score map (`mapSet`, `mapGet`, the two
passes of `combineResults`). -/

theorem mapGet_set_self (m : List (String × FuseEntry)) (k : String) (v : FuseEntry) :
    mapGet (mapSet m k v) k = some v := by
  induction m with
  | nil => simp [mapSet, mapGet]
  | cons p rest ih =>
      obtain ⟨k1, v1⟩ := p
      by_cases h : k1 = k
      · simp [mapSet, mapGet, h]
      · simp only [mapSet]
        rw [if_neg h]
        simpa [mapGet, List.find?_cons, h] using ih

theorem mapGet_set_ne (m : List (String × FuseEntry)) (k : String) (v : FuseEntry)
    (k2 : String) (h : k2 ≠ k) : mapGet (mapSet m k v) k2 = mapGet m k2 := by
  induction m with
  | nil =>
      have hk : ¬ k = k2 := fun hc => h hc.symm
      simp [mapSet, mapGet, hk]
  | cons p rest ih =>
      obtain ⟨k1, v1⟩ := p
      by_cases h1 : k1 = k
      · have hk : ¬ k = k2 := fun hc => h hc.symm
        have hk1 : ¬ k1 = k2 := fun hc => hk (h1 ▸ hc)
        simp [mapSet, mapGet, h1, hk, hk1, List.find?_cons]
      · simp only [mapSet]
        rw [if_neg h1]
        by_cases h2 : k1 = k2
        · simp [mapGet, List.find?_cons, h2]
        · simpa [mapGet, List.find?_cons, h2] using ih

theorem mapGet_mem (m : List (String × FuseEntry)) (k : String) (e : FuseEntry)
    (h : mapGet m k = some e) : ∃ p ∈ m, p.1 = k ∧ p.2 = e := by
  unfold mapGet at h
  obtain ⟨p, hfind, hsnd⟩ := Option.map_eq_some'.mp h
  refine ⟨p, List.mem_of_find?_eq_some hfind, ?_, hsnd⟩
  have := List.find?_some hfind
  exact of_decide_eq_true this

theorem mapGet_of_mem_nodup (m : List (String × FuseEntry)) (k : String) (e : FuseEntry)
    (hmem : (k, e) ∈ m) (hnd : (m.map Prod.fst).Nodup) : mapGet m k = some e := by
  induction m with
  | nil => simp at hmem
  | cons p rest ih =>
      obtain ⟨k1, v1⟩ := p
      rw [List.map_cons, List.nodup_cons] at hnd
      rcases List.mem_cons.mp hmem with hhead | htail
      · injection hhead with h1 h2
        subst h1
        subst h2
        simp [mapGet, List.find?_cons]
      · have hk1 : ¬ k1 = k := by
          intro hc
          subst hc
          exact hnd.1 (by simpa using ⟨e, htail⟩)
        simpa [mapGet, List.find?_cons, hk1] using ih htail hnd.2

theorem mapSet_keys_mem (m : List (String × FuseEntry)) (k : String) (v : FuseEntry)
    (k1 : String) (h : k1 ∈ (mapSet m k v).map Prod.fst) :
    k1 ∈ m.map Prod.fst ∨ k1 = k := by
  induction m with
  | nil =>
      simp [mapSet] at h
      exact Or.inr h
  | cons p rest ih =>
      obtain ⟨k2, v2⟩ := p
      by_cases h2 : k2 = k
      · simp only [mapSet, if_pos h2] at h
        rcases List.mem_cons.mp h with hh | ht
        · exact Or.inr hh
        · exact Or.inl (by simp; exact Or.inr (by simpa using ht))
      · simp only [mapSet, if_neg h2] at h
        rcases List.mem_cons.mp h with hh | ht
        · exact Or.inl (by simp [hh])
        · rcases ih (by simpa using ht) with hin | hk
          · exact Or.inl (by simp at hin ⊢; exact Or.inr hin)
          · exact Or.inr hk

theorem mapSet_keys_nodup (m : List (String × FuseEntry)) (k : String) (v : FuseEntry)
    (h : (m.map Prod.fst).Nodup) : ((mapSet m k v).map Prod.fst).Nodup := by
  induction m with
  | nil => simp [mapSet]
  | cons p rest ih =>
      obtain ⟨k1, v1⟩ := p
      rw [List.map_cons, List.nodup_cons] at h
      by_cases h1 : k1 = k
      · subst h1
        have hset : mapSet ((k1, v1) :: rest) k1 v = (k1, v) :: rest := by
          simp [mapSet]
        rw [hset, List.map_cons, List.nodup_cons]
        exact ⟨h.1, h.2⟩
      · simp only [mapSet]
        rw [if_neg h1]
        rw [List.map_cons, List.nodup_cons]
        constructor
        · intro hc
          rcases mapSet_keys_mem rest k v k1 hc with hin | hkk
          · exact h.1 hin
          · exact h1 hkk
        · exact ih h.2

theorem kwFold_get_fresh (l : List SearchResult) (acc : List (String × FuseEntry))
    (k : String) (h : k ∉ l.map (fun x => x.listing.id)) :
    mapGet (l.foldl (fun m r => mapSet m r.listing.id ⟨r.listing, r.score, 0⟩) acc) k =
      mapGet acc k := by
  induction l generalizing acc with
  | nil => rfl
  | cons r rest ih =>
      have hk : k ≠ r.listing.id := by
        intro hc
        exact h (by simp [hc])
      have hrest : k ∉ rest.map (fun x => x.listing.id) := fun hc => h (by simp [hc])
      calc mapGet ((r :: rest).foldl
              (fun m r => mapSet m r.listing.id ⟨r.listing, r.score, 0⟩) acc) k
          = mapGet (rest.foldl (fun m r => mapSet m r.listing.id ⟨r.listing, r.score, 0⟩)
              (mapSet acc r.listing.id ⟨r.listing, r.score, 0⟩)) k := rfl
        _ = mapGet (mapSet acc r.listing.id ⟨r.listing, r.score, 0⟩) k := ih _ hrest
        _ = mapGet acc k := mapGet_set_ne acc r.listing.id _ k hk

theorem kwFold_get_mem (l : List SearchResult) (acc : List (String × FuseEntry))
    (r : SearchResult) (hr : r ∈ l) (hnd : (l.map (fun x => x.listing.id)).Nodup) :
    mapGet (l.foldl (fun m r => mapSet m r.listing.id ⟨r.listing, r.score, 0⟩) acc)
      r.listing.id = some ⟨r.listing, r.score, 0⟩ := by
  induction l generalizing acc with
  | nil => simp at hr
  | cons y ys ih =>
      rw [List.map_cons, List.nodup_cons] at hnd
      rcases List.mem_cons.mp hr with hry | hrys
      · subst hry
        calc mapGet ((r :: ys).foldl
                (fun m r => mapSet m r.listing.id ⟨r.listing, r.score, 0⟩) acc) r.listing.id
            = mapGet (ys.foldl (fun m r => mapSet m r.listing.id ⟨r.listing, r.score, 0⟩)
                (mapSet acc r.listing.id ⟨r.listing, r.score, 0⟩)) r.listing.id := rfl
          _ = mapGet (mapSet acc r.listing.id ⟨r.listing, r.score, 0⟩) r.listing.id :=
              kwFold_get_fresh ys _ r.listing.id hnd.1
          _ = some ⟨r.listing, r.score, 0⟩ := mapGet_set_self acc r.listing.id _
      · exact ih (mapSet acc y.listing.id ⟨y.listing, y.score, 0⟩) hrys hnd.2

theorem keywordPass_get_mem (kw : List SearchResult) (r : SearchResult) (hr : r ∈ kw)
    (hnd : (kw.map (fun x => x.listing.id)).Nodup) :
    mapGet (keywordPass kw) r.listing.id = some ⟨r.listing, r.score, 0⟩ :=
  kwFold_get_mem kw [] r hr hnd

theorem semStep_get_ne (m : List (String × FuseEntry)) (r : SearchResult) (k : String)
    (h : k ≠ r.listing.id) :
    mapGet (match mapGet m r.listing.id with
            | some e => mapSet m r.listing.id ⟨e.listing, e.keywordScore, r.score⟩
            | none => mapSet m r.listing.id ⟨r.listing, 0, r.score⟩) k = mapGet m k := by
  cases mapGet m r.listing.id with
  | none => exact mapGet_set_ne m r.listing.id _ k h
  | some e => exact mapGet_set_ne m r.listing.id _ k h

theorem semFold_get_fresh (l : List SearchResult) (acc : List (String × FuseEntry))
    (k : String) (h : k ∉ l.map (fun x => x.listing.id)) :
    mapGet (semanticPass acc l) k = mapGet acc k := by
  induction l generalizing acc with
  | nil => rfl
  | cons r rest ih =>
      have hk : k ≠ r.listing.id := by
        intro hc
        exact h (by simp [hc])
      have hrest : k ∉ rest.map (fun x => x.listing.id) := fun hc => h (by simp [hc])
      calc mapGet (semanticPass acc (r :: rest)) k
          = mapGet (semanticPass
              (match mapGet acc r.listing.id with
               | some e => mapSet acc r.listing.id ⟨e.listing, e.keywordScore, r.score⟩
               | none => mapSet acc r.listing.id ⟨r.listing, 0, r.score⟩) rest) k := rfl
        _ = mapGet (match mapGet acc r.listing.id with
               | some e => mapSet acc r.listing.id ⟨e.listing, e.keywordScore, r.score⟩
               | none => mapSet acc r.listing.id ⟨r.listing, 0, r.score⟩) k := ih _ hrest
        _ = mapGet acc k := semStep_get_ne acc r k hk

theorem semFold_get_mem (l : List SearchResult) (acc : List (String × FuseEntry))
    (r : SearchResult) (hr : r ∈ l) (hnd : (l.map (fun x => x.listing.id)).Nodup) :
    mapGet (semanticPass acc l) r.listing.id =
      some (match mapGet acc r.listing.id with
            | some e => ⟨e.listing, e.keywordScore, r.score⟩
            | none => ⟨r.listing, 0, r.score⟩) := by
  induction l generalizing acc with
  | nil => simp at hr
  | cons y ys ih =>
      rw [List.map_cons, List.nodup_cons] at hnd
      rcases List.mem_cons.mp hr with hry | hrys
      · subst hry
        have hstep : mapGet (semanticPass acc (r :: ys)) r.listing.id =
            mapGet (match mapGet acc r.listing.id with
               | some e => mapSet acc r.listing.id ⟨e.listing, e.keywordScore, r.score⟩
               | none => mapSet acc r.listing.id ⟨r.listing, 0, r.score⟩) r.listing.id :=
          semFold_get_fresh ys _ r.listing.id hnd.1
        rw [hstep]
        cases mapGet acc r.listing.id with
        | none => exact mapGet_set_self acc r.listing.id _
        | some e => exact mapGet_set_self acc r.listing.id _
      · have hne : r.listing.id ≠ y.listing.id := by
          intro hc
          exact hnd.1 (hc ▸ (List.mem_map.mpr ⟨r, hrys, rfl⟩))
        have hstep := ih
            (match mapGet acc y.listing.id with
             | some e => mapSet acc y.listing.id ⟨e.listing, e.keywordScore, y.score⟩
             | none => mapSet acc y.listing.id ⟨y.listing, 0, y.score⟩) hrys hnd.2
        rw [semStep_get_ne acc y r.listing.id hne] at hstep
        exact hstep

theorem scoreMap_get_both (kw sem : List SearchResult) (rk rs : SearchResult)
    (hknd : (kw.map (fun x => x.listing.id)).Nodup)
    (hsnd : (sem.map (fun x => x.listing.id)).Nodup)
    (hrk : rk ∈ kw) (hrs : rs ∈ sem) (hid : rs.listing.id = rk.listing.id) :
    mapGet (scoreMap kw sem) rk.listing.id = some ⟨rk.listing, rk.score, rs.score⟩ := by
  have h1 : mapGet (keywordPass kw) rk.listing.id = some ⟨rk.listing, rk.score, 0⟩ :=
    keywordPass_get_mem kw rk hrk hknd
  have h2 := semFold_get_mem sem (keywordPass kw) rs hrs hsnd
  rw [hid, h1] at h2
  exact h2

theorem mapSet_consistent (m : List (String × FuseEntry)) (k : String) (v : FuseEntry)
    (hm : ∀ p ∈ m, (p.2).listing.id = p.1) (hv : v.listing.id = k) :
    ∀ p ∈ mapSet m k v, (p.2).listing.id = p.1 := by
  induction m with
  | nil =>
      intro p hp
      simp [mapSet] at hp
      subst hp
      exact hv
  | cons q rest ih =>
      obtain ⟨k1, v1⟩ := q
      intro p hp
      by_cases h1 : k1 = k
      · simp only [mapSet, if_pos h1] at hp
        rcases List.mem_cons.mp hp with hh | ht
        · subst hh
          exact hv
        · exact hm p (List.mem_cons_of_mem _ ht)
      · simp only [mapSet, if_neg h1] at hp
        rcases List.mem_cons.mp hp with hh | ht
        · subst hh
          exact hm (k1, v1) (List.mem_cons_self _ _)
        · exact ih (fun q hq => hm q (List.mem_cons_of_mem _ hq)) p ht

theorem kwFold_consistent (l : List SearchResult) (acc : List (String × FuseEntry))
    (hacc : ∀ p ∈ acc, (p.2).listing.id = p.1) :
    ∀ p ∈ l.foldl (fun m r => mapSet m r.listing.id ⟨r.listing, r.score, 0⟩) acc,
      (p.2).listing.id = p.1 := by
  induction l generalizing acc with
  | nil => exact hacc
  | cons r rest ih =>
      exact ih _ (mapSet_consistent acc r.listing.id ⟨r.listing, r.score, 0⟩ hacc rfl)

theorem semFold_consistent (l : List SearchResult) (acc : List (String × FuseEntry))
    (hacc : ∀ p ∈ acc, (p.2).listing.id = p.1) :
    ∀ p ∈ semanticPass acc l, (p.2).listing.id = p.1 := by
  induction l generalizing acc with
  | nil => exact hacc
  | cons r rest ih =>
      refine ih _ ?_
      cases hg : mapGet acc r.listing.id with
      | none =>
          show ∀ p ∈ (match mapGet acc r.listing.id with
              | some e => mapSet acc r.listing.id ⟨e.listing, e.keywordScore, r.score⟩
              | none => mapSet acc r.listing.id ⟨r.listing, 0, r.score⟩),
            (p.2).listing.id = p.1
          rw [hg]
          exact mapSet_consistent acc r.listing.id ⟨r.listing, 0, r.score⟩ hacc rfl
      | some e =>
          show ∀ p ∈ (match mapGet acc r.listing.id with
              | some e => mapSet acc r.listing.id ⟨e.listing, e.keywordScore, r.score⟩
              | none => mapSet acc r.listing.id ⟨r.listing, 0, r.score⟩),
            (p.2).listing.id = p.1
          rw [hg]
          have he : e.listing.id = r.listing.id := by
            obtain ⟨p, hp, hp1, hp2⟩ := mapGet_mem acc r.listing.id e hg
            rw [← hp1, ← hp2]
            exact hacc p hp
          exact mapSet_consistent acc r.listing.id ⟨e.listing, e.keywordScore, r.score⟩ hacc he

theorem scoreMap_consistent (kw sem : List SearchResult) :
    ∀ p ∈ scoreMap kw sem, (p.2).listing.id = p.1 :=
  semFold_consistent sem (keywordPass kw)
    (kwFold_consistent kw [] (by intro p hp; simp at hp))

theorem kwFold_keys_nodup (l : List SearchResult) (acc : List (String × FuseEntry))
    (hacc : (acc.map Prod.fst).Nodup) :
    ((l.foldl (fun m r => mapSet m r.listing.id ⟨r.listing, r.score, 0⟩) acc).map
      Prod.fst).Nodup := by
  induction l generalizing acc with
  | nil => exact hacc
  | cons r rest ih => exact ih _ (mapSet_keys_nodup acc r.listing.id _ hacc)

theorem semFold_keys_nodup (l : List SearchResult) (acc : List (String × FuseEntry))
    (hacc : (acc.map Prod.fst).Nodup) :
    ((semanticPass acc l).map Prod.fst).Nodup := by
  induction l generalizing acc with
  | nil => exact hacc
  | cons r rest ih =>
      refine ih _ ?_
      cases hg : mapGet acc r.listing.id with
      | none =>
          show ((match mapGet acc r.listing.id with
              | some e => mapSet acc r.listing.id ⟨e.listing, e.keywordScore, r.score⟩
              | none => mapSet acc r.listing.id ⟨r.listing, 0, r.score⟩).map Prod.fst).Nodup
          rw [hg]
          exact mapSet_keys_nodup acc r.listing.id _ hacc
      | some e =>
          show ((match mapGet acc r.listing.id with
              | some e => mapSet acc r.listing.id ⟨e.listing, e.keywordScore, r.score⟩
              | none => mapSet acc r.listing.id ⟨r.listing, 0, r.score⟩).map Prod.fst).Nodup
          rw [hg]
          exact mapSet_keys_nodup acc r.listing.id _ hacc

theorem scoreMap_keys_nodup (kw sem : List SearchResult) :
    ((scoreMap kw sem).map Prod.fst).Nodup :=
  semFold_keys_nodup sem (keywordPass kw) (kwFold_keys_nodup kw [] (by simp))

theorem combineAll_of_id (kw sem : List SearchResult) (rk rs : SearchResult)
    (hknd : (kw.map (fun x => x.listing.id)).Nodup)
    (hsnd : (sem.map (fun x => x.listing.id)).Nodup)
    (hrk : rk ∈ kw) (hrs : rs ∈ sem) (hid : rs.listing.id = rk.listing.id) :
    ∀ r ∈ combineAll kw sem, r.listing.id = rk.listing.id →
      r = fuseEntryResult ⟨rk.listing, rk.score, rs.score⟩ := by
  intro r hr hid2
  obtain ⟨p, hp, hfr⟩ := List.mem_map.mp hr
  have hcons := scoreMap_consistent kw sem p hp
  have hlist : (fuseEntryResult p.2).listing = (p.2).listing := rfl
  have hk : p.1 = rk.listing.id := by
    rw [← hcons]
    rw [← hfr] at hid2
    rw [hlist] at hid2
    exact hid2
  have hget := mapGet_of_mem_nodup (scoreMap kw sem) p.1 p.2
      (by rw [show (p.1, p.2) = p from rfl]; exact hp) (scoreMap_keys_nodup kw sem)
  rw [hk, scoreMap_get_both kw sem rk rs hknd hsnd hrk hrs hid] at hget
  injection hget with hp2
  rw [← hfr, hp2]

theorem combineAll_mem_of_id (kw sem : List SearchResult) (rk rs : SearchResult)
    (hknd : (kw.map (fun x => x.listing.id)).Nodup)
    (hsnd : (sem.map (fun x => x.listing.id)).Nodup)
    (hrk : rk ∈ kw) (hrs : rs ∈ sem) (hid : rs.listing.id = rk.listing.id) :
    fuseEntryResult ⟨rk.listing, rk.score, rs.score⟩ ∈ combineAll kw sem := by
  have hget := scoreMap_get_both kw sem rk rs hknd hsnd hrk hrs hid
  obtain ⟨p, hp, hp1, hp2⟩ := mapGet_mem (scoreMap kw sem) rk.listing.id _ hget
  exact List.mem_map.mpr ⟨p, hp, by rw [hp2]⟩

/-! Helper lemmas about `addBatch`. -/

/-- The `VectorEntry` that `add` stores for one batch item. -/
def entryOfItem (it : BatchItem) : VectorEntry :=
  ⟨it.id, it.embedding, it.metadata.getD []⟩

theorem addBatch_ok (s : LocalVectorStore) (l : List BatchItem)
    (h : ∀ it ∈ l, it.embedding.length = s.dimensions) :
    s.addBatch l =
      (⟨(l.map entryOfItem).foldl setEntry s.entries, s.dimensions⟩, none) := by
  induction l generalizing s with
  | nil => rfl
  | cons it rest ih =>
      have hit : ¬ it.embedding.length ≠ s.dimensions := by
        simp [h it (List.mem_cons_self it rest)]
      have hadd : s.add it.id it.embedding (it.metadata.getD []) =
          ({ s with entries := setEntry s.entries (entryOfItem it) }, none) := by
        unfold LocalVectorStore.add
        rw [if_neg hit]
        rfl
      show (match s.add it.id it.embedding (it.metadata.getD []) with
            | (s1, none) => s1.addBatch rest
            | (s1, some e) => (s1, some e)) = _
      rw [hadd]
      have hrest : ∀ x ∈ rest, x.embedding.length =
          ({ s with entries := setEntry s.entries (entryOfItem it) } :
            LocalVectorStore).dimensions :=
        fun x hx => h x (List.mem_cons_of_mem it hx)
      show ({ s with entries := setEntry s.entries (entryOfItem it) } :
          LocalVectorStore).addBatch rest = _
      rw [ih _ hrest]
      rfl

theorem addBatch_append (s : LocalVectorStore) (l1 l2 : List BatchItem) :
    s.addBatch (l1 ++ l2) =
      (match s.addBatch l1 with
       | (s1, none) => s1.addBatch l2
       | (s1, some e) => (s1, some e)) := by
  induction l1 generalizing s with
  | nil => rfl
  | cons it rest ih =>
      show (match s.add it.id it.embedding (it.metadata.getD []) with
            | (s1, none) => s1.addBatch (rest ++ l2)
            | (s1, some e) => (s1, some e)) = _
      rcases hadd : s.add it.id it.embedding (it.metadata.getD []) with ⟨s1, e⟩
      cases e with
      | none =>
          show s1.addBatch (rest ++ l2) = _
          rw [ih s1]
          show _ = (match (match s.add it.id it.embedding (it.metadata.getD []) with
                | (s2, none) => s2.addBatch rest
                | (s2, some e) => (s2, some e)) with
              | (s1, none) => s1.addBatch l2
              | (s1, some e) => (s1, some e))
          rw [hadd]
      | some err =>
          show (s1, some err) = _
          show _ = (match (match s.add it.id it.embedding (it.metadata.getD []) with
                | (s2, none) => s2.addBatch rest
                | (s2, some e) => (s2, some e)) with
              | (s1, none) => s1.addBatch l2
              | (s1, some e) => (s1, some e))
          rw [hadd]

theorem find?_entries_eq_none (es : List VectorEntry) (id : String)
    (h : id ∉ es.map VectorEntry.id) :
    es.find? (fun e => decide (e.id = id)) = none := by
  rw [List.find?_eq_none]
  intro e he
  simp only [decide_eq_true_eq]
  intro hc
  exact h (List.mem_map.mpr ⟨e, he, hc⟩)

/-! Concrete instances used by witnesses and counterexamples. -/

/-- A minimal listing with the given id. -/
def mkListing (id : String) : PackageListing :=
  ⟨id, id, "", "", 0, none, none, none, "", 0, 0, 0, 0, ""⟩

/-- Fallback `SearchResult` used as the `List.getD` default. -/
def blankResult : SearchResult := ⟨mkListing "", 0, MatchType.keyword⟩

/-- Fallback batch item used as the `List.getD` default. -/
def blankItem : BatchItem := ⟨"", [], none⟩

/-- Twenty-one listings: enough keyword matches to drive a rank-derived
score down to `0`. -/
def listings21 : List PackageListing := List.replicate 21 (mkListing "p")

/-- A one-entry summary store (its contents are irrelevant; only
`size > 0` matters to `search`'s availability guard). -/
def storeOne : LocalVectorStore := ⟨[⟨"w", [], []⟩], 0⟩

/-- An engine state with an embedder and a non-empty summary index. -/
def stAvail : MarketplaceSearchState := ⟨true, some storeOne⟩

/-! Claim theorems. -/

/-- C2 (amended): every `keywordSearch` result list has one result per
listing, the result at zero-based rank `i` has score `1.0 − 0.05·i` (the
first result scores `1.0`), and scores strictly decrease with rank. The
claimed range `(0, 1]` holds only for result lists of at most 20 entries:
`searchByKeyword` imposes no length cap, and from rank 20 on the score is
`0` or negative. -/
theorem keywordSearch_scoring (listings : List PackageListing) :
    (keywordSearch listings).length = listings.length ∧
    (∀ i, i < listings.length →
      ((keywordSearch listings).getD i blankResult).score = 1 - (i : ℝ) * 0.05) ∧
    (∀ i j, i < j → j < listings.length →
      ((keywordSearch listings).getD j blankResult).score <
        ((keywordSearch listings).getD i blankResult).score) ∧
    (listings.length ≤ 20 → ∀ r ∈ keywordSearch listings,
      0 < r.score ∧ r.score ≤ 1) := by
  refine ⟨keywordSearch_length listings, ?_, ?_, ?_⟩
  · exact fun i hi => keywordSearch_getD_score listings i blankResult hi
  · intro i j hij hj
    rw [keywordSearch_getD_score listings j blankResult hj,
        keywordSearch_getD_score listings i blankResult (lt_trans hij hj)]
    have hcast : (i : ℝ) < (j : ℝ) := by exact_mod_cast hij
    nlinarith
  · intro hlen r hr
    obtain ⟨j, hj, hscore⟩ := keywordSearch_mem_score listings r hr
    have hj19 : (j : ℝ) ≤ 19 := by
      have : j ≤ 19 := by omega
      exact_mod_cast this
    have hj0 : (0 : ℝ) ≤ (j : ℝ) := by positivity
    constructor
    · rw [hscore]; nlinarith
    · rw [hscore]; nlinarith

/-- C2 witness: with three listings, the first result scores `1.0 − 0` and
ranks strictly above the second. -/
theorem keywordSearch_scoring_witness :
    (0 < [mkListing "x", mkListing "y", mkListing "z"].length) ∧
    ((keywordSearch [mkListing "x", mkListing "y", mkListing "z"]).getD 0
      blankResult).score = 1 - ((0 : Nat) : ℝ) * 0.05 ∧
    ((keywordSearch [mkListing "x", mkListing "y", mkListing "z"]).getD 1
      blankResult).score <
      ((keywordSearch [mkListing "x", mkListing "y", mkListing "z"]).getD 0
        blankResult).score :=
  ⟨by norm_num,
   (keywordSearch_scoring [mkListing "x", mkListing "y", mkListing "z"]).2.1 0 (by norm_num),
   (keywordSearch_scoring [mkListing "x", mkListing "y", mkListing "z"]).2.2.1 0 1
     (by norm_num) (by norm_num)⟩

/-- C2 counterexample: with 21 keyword matches the rank-20 result scores
exactly `0`, so not every keyword score lies in `(0, 1]`. -/
theorem keywordSearch_range_cex :
    ¬ (∀ r ∈ keywordSearch listings21, 0 < r.score ∧ r.score ≤ 1) := by
  intro hall
  have hlen : listings21.length = 21 := by simp [listings21]
  have hb : 20 < (keywordSearch listings21).length := by
    rw [keywordSearch_length, hlen]
    norm_num
  have hmem : (keywordSearch listings21).getD 20 blankResult ∈ keywordSearch listings21 := by
    rw [List.getD_eq_getElem _ _ hb]
    exact List.getElem_mem hb
  have hscore := keywordSearch_getD_score listings21 20 blankResult (by rw [hlen]; norm_num)
  have hpos := (hall _ hmem).1
  rw [hscore] at hpos
  norm_num at hpos

/-- C7: when no embedding provider is configured, or the summary index is
absent or empty, or semantic search yields nothing, `search` returns
exactly `keywordSearch`'s ranked results truncated to `limit` (and, being a
total function, raises no error). -/
theorem search_graceful_degradation (st : MarketplaceSearchState)
    (listings : List PackageListing) (sem : List SearchResult) (limit : Nat)
    (h : st.embedderConfigured = false ∨ st.summaryStore = none ∨
         (∃ s0, st.summaryStore = some s0 ∧ s0.size = 0) ∨ sem = []) :
    search st (keywordSearch listings) sem limit = (keywordSearch listings).take limit := by
  have hnil : (if semanticAvailable st then sem else []) = ([] : List SearchResult) := by
    rcases h with h | h | ⟨s0, hs0, hsz⟩ | h
    · simp [semanticAvailable, h]
    · simp [semanticAvailable, h]
    · simp [semanticAvailable, hs0, hsz]
    · subst h
      by_cases hav : semanticAvailable st <;> simp [hav]
  simp [search, hnil]

/-- C7 witness: an engine with no embedder degrades to truncated keyword
results on a concrete query. -/
theorem search_graceful_degradation_witness :
    (⟨false, none⟩ : MarketplaceSearchState).embedderConfigured = false ∧
    search ⟨false, none⟩ (keywordSearch [mkListing "x"]) [] 5 =
      (keywordSearch [mkListing "x"]).take 5 :=
  ⟨rfl, search_graceful_degradation ⟨false, none⟩ [mkListing "x"] [] 5 (Or.inl rfl)⟩

theorem resolveNeighbor_some (g : String → Option PackageListing) (n : VSearchResult)
    (r : SearchResult) (h : resolveNeighbor g n = some r) :
    r.score = n.score ∧ r.matchType = MatchType.semantic := by
  unfold resolveNeighbor at h
  cases hl : lookupField n.metadata "packageId" with
  | none =>
      rw [hl] at h
      exact Option.noConfusion h
  | some j =>
      rw [hl] at h
      cases j with
      | str pid =>
          have h2 : (if pid = "" then none
              else Option.map (fun l => SearchResult.mk l n.score MatchType.semantic)
                (g pid)) = some r := h
          by_cases he : pid = ""
          · rw [if_pos he] at h2
            exact Option.noConfusion h2
          · rw [if_neg he] at h2
            obtain ⟨l, _, hr⟩ := Option.map_eq_some'.mp h2
            rw [← hr]
            exact ⟨rfl, rfl⟩
      | null => exact Option.noConfusion h
      | bool b => exact Option.noConfusion h
      | num q => exact Option.noConfusion h
      | arr es => exact Option.noConfusion h
      | obj fs => exact Option.noConfusion h

/-- C8: `semanticSearch`'s resolution loop silently skips every neighbor
whose metadata carries no usable `packageId` or whose `packageId` does not
resolve in the registry; what remains is exactly the resolvable neighbors,
in the vector index's order (so, in descending-similarity order whenever
the index output is so ordered), each carrying the raw cosine similarity
as its score and tagged `semantic`. The function is total: no error is
raised. -/
theorem semanticSearch_drop_spec (g : String → Option PackageListing)
    (ns : List VSearchResult) :
    semanticSearchResults g ns = ns.filterMap (resolveNeighbor g) ∧
    (∀ n ∈ ns, (resolveNeighbor g n = none ↔
      ∀ pid, lookupField n.metadata "packageId" = some (Json.str pid) → pid ≠ "" →
        g pid = none)) ∧
    (∀ n ∈ ns, ∀ pid l, lookupField n.metadata "packageId" = some (Json.str pid) →
      pid ≠ "" → g pid = some l →
      resolveNeighbor g n = some ⟨l, n.score, MatchType.semantic⟩) ∧
    (∀ r ∈ semanticSearchResults g ns, r.matchType = MatchType.semantic ∧
      ∃ n ∈ ns, r.score = n.score ∧ resolveNeighbor g n = some r) ∧
    (List.Pairwise (fun a b : VSearchResult => b.score ≤ a.score) ns →
      List.Pairwise (fun a b : SearchResult => b.score ≤ a.score)
        (semanticSearchResults g ns)) := by
  refine ⟨rfl, ?_, ?_, ?_, ?_⟩
  · intro n _
    constructor
    · intro hnone pid hpid hne
      unfold resolveNeighbor at hnone
      rw [hpid] at hnone
      have h2 : (if pid = "" then none
          else Option.map (fun l => SearchResult.mk l n.score MatchType.semantic)
            (g pid)) = none := hnone
      rw [if_neg hne] at h2
      cases hg : g pid with
      | none => rfl
      | some l =>
          rw [hg] at h2
          exact Option.noConfusion h2
    · intro hall
      unfold resolveNeighbor
      cases hl : lookupField n.metadata "packageId" with
      | none => rfl
      | some j =>
          cases j with
          | str pid =>
              show (if pid = "" then none
                  else Option.map (fun l => SearchResult.mk l n.score MatchType.semantic)
                    (g pid)) = none
              by_cases he : pid = ""
              · rw [if_pos he]
              · rw [if_neg he, hall pid hl he]
                rfl
          | null => rfl
          | bool b => rfl
          | num q => rfl
          | arr es => rfl
          | obj fs => rfl
  · intro n _ pid l hpid hne hgl
    unfold resolveNeighbor
    rw [hpid]
    show (if pid = "" then none
        else Option.map (fun l => SearchResult.mk l n.score MatchType.semantic)
          (g pid)) = some ⟨l, n.score, MatchType.semantic⟩
    rw [if_neg hne, hgl]
    rfl
  · intro r hr
    obtain ⟨n, hn, hfn⟩ := List.mem_filterMap.mp hr
    obtain ⟨hscore, htype⟩ := resolveNeighbor_some g n r hfn
    exact ⟨htype, n, hn, hscore, hfn⟩
  · intro hns
    refine List.pairwise_filterMap.mpr ?_
    refine hns.imp ?_
    intro a b hab r1 h1 r2 h2
    rw [(resolveNeighbor_some g a r1 h1).1, (resolveNeighbor_some g b r2 h2).1]
    exact hab

/-- C8 witness: on a two-neighbor index output (one resolvable id, one
stale), the results are the filtered resolutions and inherit the
descending score order. -/
theorem semanticSearch_drop_spec_witness :
    semanticSearchResults (fun pid => if pid = "A" then some (mkListing "A") else none)
        [⟨"n1", 1, [("packageId", Json.str "A")]⟩,
         ⟨"n2", 0, [("packageId", Json.str "B")]⟩] =
      ([⟨"n1", 1, [("packageId", Json.str "A")]⟩,
        ⟨"n2", 0, [("packageId", Json.str "B")]⟩] : List VSearchResult).filterMap
        (resolveNeighbor (fun pid => if pid = "A" then some (mkListing "A") else none)) ∧
    List.Pairwise (fun a b : SearchResult => b.score ≤ a.score)
      (semanticSearchResults (fun pid => if pid = "A" then some (mkListing "A") else none)
        [⟨"n1", 1, [("packageId", Json.str "A")]⟩,
         ⟨"n2", 0, [("packageId", Json.str "B")]⟩]) :=
  ⟨(semanticSearch_drop_spec _ _).1,
   (semanticSearch_drop_spec _ _).2.2.2.2 (by
      refine List.pairwise_cons.mpr ⟨?_, ?_⟩
      · intro b hb
        rw [List.mem_singleton.mp hb]
        norm_num
      · simp)⟩

/-- C1 (amended): under a configured provider and a non-empty, non-trivial
semantic result set, `search` fuses via `combineResults`; a listing present
in both input sets with keyword score `ks` and semantic score `ss` appears
exactly once in the fused pool with combined score `0.4·ks + 0.6·ss`
(missing sides default to `0`), and the fused list is sorted descending by
combined score and truncated to `limit`. The claimed match type `combined`
holds exactly when both scores are strictly positive; a doubly-matched
listing with a non-positive score on one side is tagged with the other
side's type (`keyword`/`semantic`), since the source tests `score > 0`,
not set membership. -/
theorem search_fusion_law (st : MarketplaceSearchState) (kw sem : List SearchResult)
    (limit : Nat) (rk rs : SearchResult)
    (hav : semanticAvailable st = true) (hsem : sem ≠ [])
    (hknd : (kw.map (fun x => x.listing.id)).Nodup)
    (hsnd : (sem.map (fun x => x.listing.id)).Nodup)
    (hrk : rk ∈ kw) (hrs : rs ∈ sem) (hid : rs.listing.id = rk.listing.id) :
    search st kw sem limit = combineResults kw sem limit ∧
    (∀ r ∈ combineAll kw sem, r.listing.id = rk.listing.id →
      r.score = 0.4 * rk.score + 0.6 * rs.score ∧
      r.matchType = (if 0 < rk.score ∧ 0 < rs.score then MatchType.combined
                     else if 0 < rk.score then MatchType.keyword
                     else MatchType.semantic)) ∧
    (∃ r ∈ combineAll kw sem, r.listing.id = rk.listing.id) ∧
    List.Sorted (fun a b : SearchResult => b.score ≤ a.score)
      (combineResults kw sem limit) ∧
    (combineResults kw sem limit).length = min limit (combineAll kw sem).length := by
  refine ⟨?_, ?_, ?_, ?_, ?_⟩
  · unfold search
    simp only [hav, if_true]
    rw [if_neg (fun hc => hsem (List.length_eq_zero.mp hc))]
  · intro r hr hid2
    have hr2 := combineAll_of_id kw sem rk rs hknd hsnd hrk hrs hid r hr hid2
    rw [hr2]
    constructor
    · show rk.score * 0.4 + rs.score * 0.6 = 0.4 * rk.score + 0.6 * rs.score
      ring
    · rfl
  · exact ⟨fuseEntryResult ⟨rk.listing, rk.score, rs.score⟩,
      combineAll_mem_of_id kw sem rk rs hknd hsnd hrk hrs hid, rfl⟩
  · exact List.Pairwise.sublist (List.take_sublist limit _)
      (pairwise_desc_mergeSort SearchResult.score (combineAll kw sem))
  · unfold combineResults
    rw [List.length_take, List.length_mergeSort]

/-- A keyword hit for listing `A` with score `1`. -/
def rkWit : SearchResult := ⟨mkListing "A", 1, MatchType.keyword⟩

/-- A semantic hit for listing `A` with a strictly positive score. -/
noncomputable def rsWit : SearchResult := ⟨mkListing "A", 1 / 2, MatchType.semantic⟩

/-- C1 witness: the fusion law instantiated on a doubly-matched listing
with keyword score `1` and semantic score `1/2`. -/
theorem search_fusion_law_witness :
    semanticAvailable stAvail = true ∧
    ([rsWit] ≠ ([] : List SearchResult)) ∧
    (search stAvail [rkWit] [rsWit] 10 = combineResults [rkWit] [rsWit] 10 ∧
     (∀ r ∈ combineAll [rkWit] [rsWit], r.listing.id = rkWit.listing.id →
        r.score = 0.4 * rkWit.score + 0.6 * rsWit.score ∧
        r.matchType = (if 0 < rkWit.score ∧ 0 < rsWit.score then MatchType.combined
                       else if 0 < rkWit.score then MatchType.keyword
                       else MatchType.semantic)) ∧
     (∃ r ∈ combineAll [rkWit] [rsWit], r.listing.id = rkWit.listing.id) ∧
     List.Sorted (fun a b : SearchResult => b.score ≤ a.score)
       (combineResults [rkWit] [rsWit] 10) ∧
     (combineResults [rkWit] [rsWit] 10).length =
       min 10 (combineAll [rkWit] [rsWit]).length) :=
  ⟨rfl, by simp,
   search_fusion_law stAvail [rkWit] [rsWit] 10 rkWit rsWit rfl (by simp)
     (by simp) (by simp) (List.mem_singleton.mpr rfl) (List.mem_singleton.mpr rfl) rfl⟩

/-- A keyword result set containing listing `A` with score `1`. -/
def kwCex : List SearchResult := [⟨mkListing "A", 1, MatchType.keyword⟩]

/-- A semantic result set containing listing `A` with score `0` (an
orthogonal embedding neighbor is a valid semantic hit with cosine `0`). -/
def semCex : List SearchResult := [⟨mkListing "A", 0, MatchType.semantic⟩]

/-- C1 counterexample: listing `A` appears in both result sets (keyword
score `1`, semantic score `0`), so the claim as stated requires matchType
`combined`; the fused output scores it `0.4·1 + 0.6·0` but tags it
`keyword`, because the source tests `semanticScore > 0`. -/
theorem search_fusion_matchType_cex :
    (⟨mkListing "A", (1 : ℝ), MatchType.keyword⟩ : SearchResult) ∈ kwCex ∧
    (⟨mkListing "A", (0 : ℝ), MatchType.semantic⟩ : SearchResult) ∈ semCex ∧
    search stAvail kwCex semCex 10 =
      [⟨mkListing "A", 1 * 0.4 + 0 * 0.6, MatchType.keyword⟩] ∧
    ∀ r ∈ search stAvail kwCex semCex 10, r.matchType ≠ MatchType.combined := by
  have h1 : search stAvail kwCex semCex 10 = combineResults kwCex semCex 10 := by
    unfold search
    simp only [show semanticAvailable stAvail = true from rfl, if_true]
    rw [if_neg (by simp [semCex])]
  have h2 : combineAll kwCex semCex =
      [fuseEntryResult ⟨mkListing "A", 1, 0⟩] := rfl
  have h3 : fuseEntryResult ⟨mkListing "A", (1 : ℝ), 0⟩ =
      ⟨mkListing "A", 1 * 0.4 + 0 * 0.6, MatchType.keyword⟩ := by
    unfold fuseEntryResult
    rw [if_neg (by norm_num), if_pos (by norm_num)]
  have hsearch : search stAvail kwCex semCex 10 =
      [⟨mkListing "A", 1 * 0.4 + 0 * 0.6, MatchType.keyword⟩] := by
    calc search stAvail kwCex semCex 10 = combineResults kwCex semCex 10 := h1
      _ = ((combineAll kwCex semCex).mergeSort
            (fun a b => decide (b.score ≤ a.score))).take 10 := rfl
      _ = ([fuseEntryResult ⟨mkListing "A", 1, 0⟩].mergeSort
            (fun a b => decide (b.score ≤ a.score))).take 10 := by rw [h2]
      _ = [fuseEntryResult ⟨mkListing "A", 1, 0⟩].take 10 := by
            rw [List.mergeSort_singleton]
      _ = [fuseEntryResult ⟨mkListing "A", 1, 0⟩] := rfl
      _ = [⟨mkListing "A", 1 * 0.4 + 0 * 0.6, MatchType.keyword⟩] := by rw [h3]
  refine ⟨List.mem_singleton.mpr rfl, List.mem_singleton.mpr rfl, hsearch, ?_⟩
  intro r hr
  rw [hsearch] at hr
  rw [List.mem_singleton.mp hr]
  simp

/-- C3: on an index of dimensionality `D` whose entries respect `D`, `add`
and `query` with a vector of length `≠ D` fail with the dimension-mismatch
error — for `add` the state (in particular `size`) is unchanged — while
with length exactly `D` both succeed, `add` storing the embedding verbatim
(no truncation or padding). -/
theorem dimension_invariant (s : LocalVectorStore) (id : String) (emb : List ℚ)
    (md : Metadata) (v : List ℚ) (k : Nat)
    (hwf : ∀ e ∈ s.entries, e.embedding.length = s.dimensions) :
    (emb.length ≠ s.dimensions →
      s.add id emb md = (s, some (VSError.dimensionMismatch s.dimensions emb.length)) ∧
      (s.add id emb md).1.size = s.size) ∧
    (emb.length = s.dimensions →
      (s.add id emb md).2 = none ∧
      (s.add id emb md).1.get id = some ⟨id, emb, md⟩) ∧
    (v.length ≠ s.dimensions →
      s.query v k = Except.error (VSError.dimensionMismatch s.dimensions v.length)) ∧
    (v.length = s.dimensions → ∃ res, s.query v k = Except.ok res) := by
  refine ⟨?_, ?_, ?_, ?_⟩
  · intro h
    have hadd : s.add id emb md =
        (s, some (VSError.dimensionMismatch s.dimensions emb.length)) := by
      unfold LocalVectorStore.add
      rw [if_pos h]
    exact ⟨hadd, by rw [hadd]⟩
  · intro h
    have hadd : s.add id emb md =
        ({ s with entries := setEntry s.entries ⟨id, emb, md⟩ }, none) := by
      unfold LocalVectorStore.add
      rw [if_neg (by simp [h])]
    rw [hadd]
    exact ⟨rfl, find?_setEntry_self s.entries ⟨id, emb, md⟩⟩
  · intro h
    unfold LocalVectorStore.query
    rw [if_pos h]
  · intro h
    exact ⟨_, query_ok s v k hwf h⟩

/-- C3 witness: the spec scenario — `add("a", [1,2,3,4])` on an empty
dimensions-3 index fails with a dimension mismatch and leaves `size` at 0
(and a matching 3-vector `add` succeeds). -/
theorem dimension_invariant_witness :
    (([(1 : ℚ), 2, 3, 4].length ≠ (⟨[], 3⟩ : LocalVectorStore).dimensions) ∧
     ((⟨[], 3⟩ : LocalVectorStore).add "a" [1, 2, 3, 4] [] =
        (⟨[], 3⟩, some (VSError.dimensionMismatch 3 4)) ∧
      ((⟨[], 3⟩ : LocalVectorStore).add "a" [1, 2, 3, 4] []).1.size =
        (⟨[], 3⟩ : LocalVectorStore).size)) ∧
    (((⟨[], 3⟩ : LocalVectorStore).add "a" [1, 0, 0] []).2 = none ∧
     ((⟨[], 3⟩ : LocalVectorStore).add "a" [1, 0, 0] []).1.get "a" =
       some ⟨"a", [1, 0, 0], []⟩) :=
  ⟨⟨by norm_num,
    (dimension_invariant ⟨[], 3⟩ "a" [1, 2, 3, 4] [] [] 0 (by simp)).1 (by norm_num)⟩,
   (dimension_invariant ⟨[], 3⟩ "a" [1, 0, 0] [] [] 0 (by simp)).2.1 (by norm_num)⟩

/-- C4: a matching-dimensionality query on a well-formed index of `N`
entries succeeds, returning exactly `min K N` results, sorted in
descending order of cosine similarity to the query vector (each result's
score is the cosine similarity of its entry); on an empty index the result
is the empty list, with no error. -/
theorem query_topK (s : LocalVectorStore) (v : List ℚ) (k : Nat)
    (hwf : ∀ e ∈ s.entries, e.embedding.length = s.dimensions)
    (hv : v.length = s.dimensions) :
    ∃ res, s.query v k = Except.ok res ∧
      res.length = min k s.size ∧
      List.Sorted (fun a b : VSearchResult => b.score ≤ a.score) res ∧
      res = ((s.entries.map (fun e => VSearchResult.mk e.id (cosValue v e.embedding)
          e.metadata)).mergeSort (fun a b => decide (b.score ≤ a.score))).take k ∧
      (s.entries = [] → res = []) := by
  refine ⟨_, query_ok s v k hwf hv, ?_, ?_, rfl, ?_⟩
  · rw [List.length_take, List.length_mergeSort, List.length_map]
    rfl
  · exact List.Pairwise.sublist (List.take_sublist k _)
      (pairwise_desc_mergeSort VSearchResult.score _)
  · intro h
    rw [h]
    simp

/-- C4 witness: querying a freshly constructed empty dimensions-3 index
with `[1,0,0]` and `topK = 5` returns the empty list without error. -/
theorem query_topK_witness :
    ([(1 : ℚ), 0, 0].length = (⟨[], 3⟩ : LocalVectorStore).dimensions) ∧
    ∃ res, (⟨[], 3⟩ : LocalVectorStore).query [1, 0, 0] 5 = Except.ok res ∧
      res = [] := by
  obtain ⟨res, hok, _, _, _, hemp⟩ := query_topK ⟨[], 3⟩ [1, 0, 0] 5 (by simp) rfl
  exact ⟨rfl, res, hok, hemp rfl⟩

/-- C5: on equal-length vectors `cosineSimilarity` never errors and never
produces NaN (the model is real-valued and total): it returns
`dot/(‖a‖·‖b‖)` whenever both norms are nonzero (`‖a‖ = 0` iff the
accumulated `normA` is `0`), the value always lies in `[-1, 1]`, identical
nonzero vectors give `1`, opposite nonzero vectors give `-1`, and a zero
norm on either side gives exactly `0`. -/
theorem cosineSimilarity_spec (a b : List ℚ) (h : a.length = b.length) :
    cosineSimilarity a b = Except.ok (cosValue a b) ∧
    (dotSum a a ≠ 0 → dotSum b b ≠ 0 →
      cosValue a b = ((dotSum a b : ℚ) : ℝ) /
        (Real.sqrt ((dotSum a a : ℚ) : ℝ) * Real.sqrt ((dotSum b b : ℚ) : ℝ))) ∧
    (-1 ≤ cosValue a b ∧ cosValue a b ≤ 1) ∧
    (b = a → dotSum a a ≠ 0 → cosValue a b = 1) ∧
    (b = a.map (fun x => -x) → dotSum a a ≠ 0 → cosValue a b = -1) ∧
    ((dotSum a a = 0 ∨ dotSum b b = 0) → cosValue a b = 0) :=
  ⟨cosineSimilarity_ok a b h,
   fun ha hb => cosValue_formula a b ha hb,
   cosValue_bounds a b h,
   fun hb ha => by rw [hb]; exact cosValue_self a ha,
   fun hb ha => by rw [hb]; exact cosValue_opposite a ha,
   cosValue_of_norm_zero a b⟩

/-- C5 witness: the specification applied to the orthogonal pair
`[1,0]`, `[0,1]`. -/
theorem cosineSimilarity_spec_witness :
    ([(1 : ℚ), 0].length = [(0 : ℚ), 1].length) ∧
    cosineSimilarity [1, 0] [0, 1] = Except.ok (cosValue [1, 0] [0, 1]) ∧
    (-1 ≤ cosValue [(1 : ℚ), 0] [0, 1] ∧ cosValue [(1 : ℚ), 0] [0, 1] ≤ 1) :=
  ⟨rfl, (cosineSimilarity_spec [1, 0] [0, 1] rfl).1,
   (cosineSimilarity_spec [1, 0] [0, 1] rfl).2.2.1⟩

/-- C6: saving an index (with its map's distinct ids) and loading the
written file reproduces the index exactly — same `size`, same entries (id,
embedding, metadata), same `dimensions` — so every query on the reloaded
index returns the same ranked ids and scores as on the original. -/
theorem save_load_roundtrip (s : LocalVectorStore)
    (hnd : (s.entries.map VectorEntry.id).Nodup) :
    LocalVectorStore.load (some s.save) = Except.ok s ∧
    ∀ s2, LocalVectorStore.load (some s.save) = Except.ok s2 →
      s2.size = s.size ∧ s2.entries = s.entries ∧ s2.dimensions = s.dimensions ∧
      ∀ v k, s2.query v k = s.query v k := by
  have h1 := load_save_eq s hnd
  refine ⟨h1, ?_⟩
  intro s2 h2
  rw [h1] at h2
  injection h2 with h3
  subst h3
  exact ⟨rfl, rfl, rfl, fun v k => rfl⟩

/-- A concrete two-entry dimensions-3 index. -/
def sWit : LocalVectorStore :=
  ⟨[⟨"a", [1, 0, 0], [("label", Json.str "x")]⟩, ⟨"b", [0, 1, 0], []⟩], 3⟩

/-- C6 witness: the round trip on a concrete two-entry index. -/
theorem save_load_roundtrip_witness :
    ((sWit.entries.map VectorEntry.id).Nodup) ∧
    LocalVectorStore.load (some sWit.save) = Except.ok sWit :=
  ⟨by decide, (save_load_roundtrip sWit (by decide)).1⟩

/-- A JSON object with an `entries` array but no `dimensions` field: not a
serialized `StoredData` value, yet `load` accepts it. -/
def fileNoDims : Json := Json.obj [("entries", Json.arr [])]

/-- C9 counterexample: `load` succeeds on the file `{"entries": []}` —
which no index state serializes to, since `save` always writes a
`dimensions` field — returning an empty index with the constructor default
dimensionality `768`; so `load` does not fail on every file whose contents
are not valid serialized index data. -/
theorem load_missing_dims_cex :
    LocalVectorStore.load (some fileNoDims) = Except.ok ⟨[], 768⟩ ∧
    ¬ ∃ s : LocalVectorStore, s.save = fileNoDims := by
  constructor
  · rfl
  · rintro ⟨s, hs⟩
    simp [LocalVectorStore.save, fileNoDims] at hs

/-- C9 (amended): `load` fails for a missing or unparseable file, and for
every file written by `save` (from an index with distinct ids) it succeeds
with exactly the persisted entries and dimensionality; however, a parseable
JSON object without a `dimensions` field is not rejected — when it loads,
the index silently gets the constructor default dimensionality `768`. -/
theorem load_spec (s : LocalVectorStore)
    (hnd : (s.entries.map VectorEntry.id).Nodup) :
    LocalVectorStore.load none = Except.error LoadError.fileMissingOrUnparseable ∧
    LocalVectorStore.load (some s.save) = Except.ok s ∧
    (∀ fields, lookupField fields "dimensions" = none →
      ∀ s2, LocalVectorStore.load (some (Json.obj fields)) = Except.ok s2 →
        s2.dimensions = 768) := by
  refine ⟨rfl, load_save_eq s hnd, ?_⟩
  intro fields hf s2 h2
  have hd : decodeDims fields = some 768 := by
    unfold decodeDims
    rw [hf]
  have h3 : (match decodeDims fields, decodeEntries fields with
      | some dims, some entries =>
          Except.ok (⟨entries.foldl setEntry [], dims⟩ : LocalVectorStore)
      | _, _ => Except.error LoadError.malformedData) = Except.ok s2 := h2
  rw [hd] at h3
  cases he : decodeEntries fields with
  | none =>
      rw [he] at h3
      exact Except.noConfusion h3
  | some entries =>
      rw [he] at h3
      have h4 : Except.ok (⟨entries.foldl setEntry [], 768⟩ : LocalVectorStore) =
          Except.ok s2 := h3
      injection h4 with h5
      rw [← h5]

/-- C9 witness: the amended load specification at a concrete index. -/
theorem load_spec_witness :
    ((sWit.entries.map VectorEntry.id).Nodup) ∧
    LocalVectorStore.load none = Except.error LoadError.fileMissingOrUnparseable ∧
    LocalVectorStore.load (some sWit.save) = Except.ok sWit :=
  ⟨by decide, (load_spec sWit (by decide)).1, (load_spec sWit (by decide)).2.1⟩

theorem addBatch_first_bad (s : LocalVectorStore) (good : List BatchItem)
    (bad : BatchItem) (rest : List BatchItem)
    (hgood : ∀ it ∈ good, it.embedding.length = s.dimensions)
    (hbad : bad.embedding.length ≠ s.dimensions) :
    s.addBatch (good ++ bad :: rest) =
      ((s.addBatch good).1,
       some (VSError.dimensionMismatch s.dimensions bad.embedding.length)) := by
  rw [addBatch_append, addBatch_ok s good hgood]
  have hadd : (⟨(good.map entryOfItem).foldl setEntry s.entries, s.dimensions⟩ :
      LocalVectorStore).add bad.id bad.embedding (bad.metadata.getD []) =
      (⟨(good.map entryOfItem).foldl setEntry s.entries, s.dimensions⟩,
       some (VSError.dimensionMismatch s.dimensions bad.embedding.length)) := by
    unfold LocalVectorStore.add
    rw [if_pos hbad]
  show (match (⟨(good.map entryOfItem).foldl setEntry s.entries, s.dimensions⟩ :
      LocalVectorStore).add bad.id bad.embedding (bad.metadata.getD []) with
    | (s1, none) => s1.addBatch rest
    | (s1, some e) => (s1, some e)) = _
  rw [hadd]

/-- C10: `addBatch` applies `add` to its items strictly in input order with
partial-with-error semantics: when the first dimension-mismatched item sits
at index `k`, the call returns the dimension-mismatch error, the state is
exactly the state after adding the first `k` items (so each of them, under
distinct batch ids, is present with its data), and no later item with a
fresh id has been applied. -/
theorem addBatch_partial_semantics (s : LocalVectorStore) (items : List BatchItem) (k : Nat)
    (hk : k < items.length)
    (hbad : (items.getD k blankItem).embedding.length ≠ s.dimensions)
    (hgood : ∀ j, j < k → (items.getD j blankItem).embedding.length = s.dimensions) :
    s.addBatch items = ((s.addBatch (items.take k)).1,
        some (VSError.dimensionMismatch s.dimensions
          (items.getD k blankItem).embedding.length)) ∧
    (s.addBatch (items.take k)).2 = none ∧
    (((items.take k).map BatchItem.id).Nodup →
      ∀ j, j < k → (s.addBatch items).1.get (items.getD j blankItem).id =
        some ⟨(items.getD j blankItem).id, (items.getD j blankItem).embedding,
              (items.getD j blankItem).metadata.getD []⟩) ∧
    (∀ j, k ≤ j → j < items.length →
      (items.getD j blankItem).id ∉ s.entries.map VectorEntry.id →
      (items.getD j blankItem).id ∉ (items.take k).map BatchItem.id →
      (s.addBatch items).1.get (items.getD j blankItem).id = none) := by
  have hmemtake : ∀ j, j < k → items.getD j blankItem ∈ items.take k := by
    intro j hj
    have hjlen : j < items.length := lt_trans hj hk
    have hjt : j < (items.take k).length := by
      rw [List.length_take]
      exact lt_min hj hjlen
    refine List.mem_iff_getElem.mpr ⟨j, hjt, ?_⟩
    rw [List.getElem_take]
    exact (List.getD_eq_getElem items blankItem hjlen).symm
  have hgood2 : ∀ it ∈ items.take k, it.embedding.length = s.dimensions := by
    intro it hit
    obtain ⟨j, hjt, hget⟩ := List.mem_iff_getElem.mp hit
    have hjk : j < k := lt_of_lt_of_le hjt (by rw [List.length_take]; exact min_le_left _ _)
    have hjlen : j < items.length := lt_trans hjk hk
    have : it = items.getD j blankItem := by
      rw [← hget, List.getElem_take]
      exact (List.getD_eq_getElem items blankItem hjlen).symm
    rw [this]
    exact hgood j hjk
  have htake := addBatch_ok s (items.take k) hgood2
  have hsplit : items = items.take k ++
      (items.getD k blankItem :: items.drop (k + 1)) := by
    rw [List.getD_eq_getElem items blankItem hk]
    rw [← List.drop_eq_getElem_cons hk]
    exact (List.take_append_drop k items).symm
  have hmain := addBatch_first_bad s (items.take k) (items.getD k blankItem)
      (items.drop (k + 1)) hgood2 hbad
  rw [← hsplit] at hmain
  have hfst : (s.addBatch items).1 =
      ⟨((items.take k).map entryOfItem).foldl setEntry s.entries, s.dimensions⟩ := by
    rw [hmain, htake]
  refine ⟨hmain, by rw [htake], ?_, ?_⟩
  · intro hnd j hj
    rw [hfst]
    have hnd2 : (((items.take k).map entryOfItem).map VectorEntry.id).Nodup := by
      rw [List.map_map]
      exact hnd
    have hmem : entryOfItem (items.getD j blankItem) ∈ (items.take k).map entryOfItem :=
      List.mem_map.mpr ⟨items.getD j blankItem, hmemtake j hj, rfl⟩
    exact find?_foldl_setEntry_mem ((items.take k).map entryOfItem) s.entries
      (entryOfItem (items.getD j blankItem)) hmem hnd2
  · intro j _ _ hfresh1 hfresh2
    rw [hfst]
    have hfresh2m : (items.getD j blankItem).id ∉
        ((items.take k).map entryOfItem).map VectorEntry.id := by
      rw [List.map_map]
      exact hfresh2
    show (((items.take k).map entryOfItem).foldl setEntry s.entries).find?
        (fun e => decide (e.id = (items.getD j blankItem).id)) = none
    rw [find?_foldl_setEntry_fresh _ s.entries _ hfresh2m]
    exact find?_entries_eq_none s.entries _ hfresh1

/-- C10 witness: a three-item batch on a dimensions-2 index whose second
item has length 1 — the call fails, item 0 remains inserted, item 2 is
never applied. -/
theorem addBatch_partial_semantics_witness :
    (1 < ([⟨"a", [1, 0], none⟩, ⟨"b", [1], none⟩, ⟨"c", [0, 1], none⟩] :
        List BatchItem).length) ∧
    (⟨[], 2⟩ : LocalVectorStore).addBatch
        [⟨"a", [1, 0], none⟩, ⟨"b", [1], none⟩, ⟨"c", [0, 1], none⟩] =
      (((⟨[], 2⟩ : LocalVectorStore).addBatch
          ([⟨"a", [1, 0], none⟩, ⟨"b", [1], none⟩, ⟨"c", [0, 1], none⟩].take 1)).1,
       some (VSError.dimensionMismatch 2 1)) ∧
    ((⟨[], 2⟩ : LocalVectorStore).addBatch
        [⟨"a", [1, 0], none⟩, ⟨"b", [1], none⟩, ⟨"c", [0, 1], none⟩]).1.get "a" =
      some ⟨"a", [1, 0], []⟩ ∧
    ((⟨[], 2⟩ : LocalVectorStore).addBatch
        [⟨"a", [1, 0], none⟩, ⟨"b", [1], none⟩, ⟨"c", [0, 1], none⟩]).1.get "c" =
      none := by
  have h := addBatch_partial_semantics ⟨[], 2⟩
      [⟨"a", [1, 0], none⟩, ⟨"b", [1], none⟩, ⟨"c", [0, 1], none⟩] 1
      (by norm_num) (by norm_num) (by
        intro j hj
        interval_cases j
        norm_num)
  refine ⟨by norm_num, h.1, ?_, ?_⟩
  · exact h.2.2.1 (by simp) 0 (by norm_num)
  · exact h.2.2.2 2 (by norm_num) (by norm_num) (by simp) (by simp)
